import Mathlib

/-!
Verification of the recursive embedded-JSON resolver and the JSON parse
pipeline of the json-parser repository.

The data model follows src/types.ts: a JSON value is null, a boolean, a
number, a string, an array of values, or an object given as a key/value
list in insertion order.  Strings are modelled as lists of characters.
Numbers are modelled as integers: the embedding covers the integer
fragment of JSON numerals, since floating point is outside the shallow
embedding.

`processRecursive`, `displayData` and the parse effect are translated
from the application source.  `JSON.parse` and `JSON.stringify` are the
host standard library, whose source is not part of the repository; they
are modelled from the spec (RFC 8259 grammar, stable key order).
-/

/-- The tagged union of JSON values, from src/types.ts
(`JsonValue = string | number | boolean | null | JsonArray | JsonObject`).
Object fields are kept as a list of key/value pairs in insertion order. -/
inductive JsonValue where
  | null : JsonValue
  | bool (b : Bool) : JsonValue
  | num (n : Int) : JsonValue
  | str (s : List Char) : JsonValue
  | arr (elems : List JsonValue) : JsonValue
  | obj (fields : List (List Char × JsonValue)) : JsonValue

/-- JSON insignificant whitespace, RFC 8259 section 2: space, tab,
line feed, carriage return. -/
def jsonWs (c : Char) : Bool :=
  c = ' ' || c = '\t' || c = '\n' || c = '\r'

/-- The whitespace set of JavaScript `String.prototype.trim`:
WhiteSpace and LineTerminator code points. -/
def jsWhitespace (c : Char) : Bool :=
  (c.toNat = 0x9) || (c.toNat = 0xA) || (c.toNat = 0xB) || (c.toNat = 0xC) ||
  (c.toNat = 0xD) || (c.toNat = 0x20) || (c.toNat = 0xA0) || (c.toNat = 0x1680) ||
  (0x2000 ≤ c.toNat && c.toNat ≤ 0x200A) || (c.toNat = 0x2028) || (c.toNat = 0x2029) ||
  (c.toNat = 0x202F) || (c.toNat = 0x205F) || (c.toNat = 0x3000) || (c.toNat = 0xFEFF)

/-- Drop leading JavaScript whitespace. -/
def jsTrimLeft : List Char → List Char
  | [] => []
  | c :: cs => if jsWhitespace c then jsTrimLeft cs else c :: cs

/-- Drop trailing JavaScript whitespace. -/
def jsTrimRight : List Char → List Char
  | [] => []
  | c :: cs =>
    match jsTrimRight cs with
    | [] => if jsWhitespace c then [] else [c]
    | r => c :: r

/-- JavaScript `String.prototype.trim`: drop whitespace at both ends. -/
def jsTrim (s : List Char) : List Char :=
  jsTrimRight (jsTrimLeft s)

/-- The string pre-filter of `processRecursive`:
`data.trim().startsWith('\x7b') || data.trim().startsWith('[')`. -/
def looksJson (s : List Char) : Bool :=
  match jsTrim s with
  | c :: _ => c = '\x7b' || c = '['
  | [] => false

/-- The first non-whitespace character of a string, the formulation the
spec uses for the resolver's pre-filter. -/
def firstNonWs (s : List Char) : Option Char :=
  (jsTrimLeft s).head?

/-- Skip leading JSON whitespace in the scanner. -/
def skipWs : List Char → List Char
  | [] => []
  | c :: cs => if jsonWs c then skipWs cs else c :: cs

/-- Value of one hexadecimal digit. -/
def hexVal (c : Char) : Option Nat :=
  if '0' ≤ c ∧ c ≤ '9' then some (c.toNat - 48)
  else if 'a' ≤ c ∧ c ≤ 'f' then some (c.toNat - 87)
  else if 'A' ≤ c ∧ c ≤ 'F' then some (c.toNat - 55)
  else none

/-- The two-character string escapes of RFC 8259. -/
def escAbbrev (c : Char) : Option Char :=
  if c = '"' then some '"'
  else if c = '\\' then some '\\'
  else if c = '/' then some '/'
  else if c = 'b' then some '\x08'
  else if c = 'f' then some '\x0c'
  else if c = 'n' then some '\n'
  else if c = 'r' then some '\x0d'
  else if c = 't' then some '\t'
  else none

/-- A scalar-value code point as a character; surrogate halves and
out-of-range codes are refused. -/
def codeToChar (n : Nat) : Option Char :=
  if h : n.isValidChar then some (Char.ofNatAux n h) else none

/-- Combine a surrogate pair from a pair of `\u` escapes into one code
point. -/
def surrogatePair (hi lo : Nat) : Nat :=
  0x10000 + (hi - 0xD800) * 0x400 + (lo - 0xDC00)

/-- The value of four hexadecimal digit characters. -/
def hex4 (h1 h2 h3 h4 : Char) : Option Nat :=
  match hexVal h1, hexVal h2, hexVal h3, hexVal h4 with
  | some v1, some v2, some v3, some v4 => some (v1 * 4096 + v2 * 256 + v3 * 16 + v4)
  | _, _, _, _ => none

/-- One unit of a JSON string literal body: the closing quote (no
character), or one decoded character — a literal, a two-character
escape, a `\u` escape, or a surrogate pair of `\u` escapes.  A lone
surrogate half, an unescaped control character, or a malformed escape
is a failure. -/
def strStep : List Char → Option (Option Char × List Char)
  | [] => none
  | c :: cs =>
    if c = '"' then some (none, cs)
    else if c = '\\' then
      match cs with
      | [] => none
      | e :: cs1 =>
        if e = 'u' then
          match cs1 with
          | h1 :: h2 :: h3 :: h4 :: cs2 =>
            match hex4 h1 h2 h3 h4 with
            | none => none
            | some u =>
              if 0xD800 ≤ u ∧ u ≤ 0xDBFF then
                match cs2 with
                | b1 :: b2 :: g1 :: g2 :: g3 :: g4 :: cs3 =>
                  if b1 = '\\' ∧ b2 = 'u' then
                    match hex4 g1 g2 g3 g4 with
                    | none => none
                    | some l =>
                      if 0xDC00 ≤ l ∧ l ≤ 0xDFFF then
                        match codeToChar (surrogatePair u l) with
                        | some ch => some (some ch, cs3)
                        | none => none
                      else none
                  else none
                | _ => none
              else
                match codeToChar u with
                | some ch => some (some ch, cs2)
                | none => none
          | _ => none
        else
          match escAbbrev e with
          | some ch => some (some ch, cs1)
          | none => none
    else if c.toNat < 0x20 then none
    else some (some c, cs)

/-- The body of a JSON string literal after the opening quote, read one
`strStep` unit at a time; the fuel only drives the recursion, and any
amount above the text length is enough since every unit consumes at
least one character. -/
def parseStrBodyF : Nat → List Char → Option (List Char × List Char)
  | 0, _ => none
  | fuel + 1, cs =>
    match strStep cs with
    | none => none
    | some (none, rest) => some ([], rest)
    | some (some ch, rest) => (parseStrBodyF fuel rest).map (fun r => (ch :: r.1, r.2))

/-- Scan the body of a JSON string literal after the opening quote,
returning the decoded characters and the text after the closing
quote. -/
def parseStrBody (cs : List Char) : Option (List Char × List Char) :=
  parseStrBodyF (cs.length + 1) cs

/-- Accumulate a run of decimal digits into a natural number. -/
def parseDigits (acc : Nat) : List Char → Nat × List Char
  | [] => (acc, [])
  | c :: cs => if c.isDigit then parseDigits (acc * 10 + (c.toNat - 48)) cs else (acc, c :: cs)

/-- Whether a list of characters begins with a decimal digit. -/
def headIsDigit : List Char → Bool
  | c :: _ => c.isDigit
  | [] => false

/-- An unsigned JSON integer numeral: `0`, or a nonzero digit followed
by digits; a leading zero followed by another digit is a syntax error. -/
def parseUNat : List Char → Option (Nat × List Char)
  | [] => none
  | c :: cs =>
    if c = '0' then (if headIsDigit cs then none else some (0, cs))
    else if c.isDigit then some (parseDigits (c.toNat - 48) cs)
    else none

/-- A signed JSON integer numeral. -/
def parseNum (cs : List Char) : Option (Int × List Char) :=
  match cs with
  | [] => none
  | c :: cs1 =>
    if c = '-' then (parseUNat cs1).map (fun r => (-(r.1 : Int), r.2))
    else (parseUNat (c :: cs1)).map (fun r => ((r.1 : Int), r.2))

/-- One field assignment on a JavaScript object: a repeated key updates
the value in place, a fresh key is appended in insertion order. -/
def insertField (kvs : List (List Char × JsonValue)) (k : List Char) (v : JsonValue) :
    List (List Char × JsonValue) :=
  if kvs.any (fun kv => kv.1 == k) then
    kvs.map (fun kv => if kv.1 == k then (k, v) else kv)
  else kvs ++ [(k, v)]

/-- Build an object from parsed key/value pairs by successive
assignment, as `JSON.parse` populates a JavaScript object. -/
def buildObj (pairs : List (List Char × JsonValue)) : List (List Char × JsonValue) :=
  pairs.foldl (fun m kv => insertField m kv.1 kv.2) []

mutual
/-- Modelled from the spec: the value grammar of the host `JSON.parse`
(RFC 8259 — objects, arrays, strings, numbers, true/false/null), whose
source is the standard library and not part of the repository.  Numbers
are restricted to the integer fragment.  The fuel argument only bounds
the nesting of recursive calls; `jsonParseE` supplies enough for any
input. -/
def parseVal : Nat → List Char → Option (JsonValue × List Char)
  | 0, _ => none
  | fuel + 1, cs =>
    match skipWs cs with
    | [] => none
    | c :: rest =>
      if c = 'n' then
        match rest with
        | 'u' :: 'l' :: 'l' :: rest2 => some (.null, rest2)
        | _ => none
      else if c = 't' then
        match rest with
        | 'r' :: 'u' :: 'e' :: rest2 => some (.bool true, rest2)
        | _ => none
      else if c = 'f' then
        match rest with
        | 'a' :: 'l' :: 's' :: 'e' :: rest2 => some (.bool false, rest2)
        | _ => none
      else if c = '"' then
        (parseStrBody rest).map (fun r => (.str r.1, r.2))
      else if c = '[' then
        match skipWs rest with
        | [] => none
        | c2 :: rest2 =>
          if c2 = ']' then some (.arr [], rest2)
          else
            match parseVal fuel (c2 :: rest2) with
            | some (v, rest3) =>
              match parseArrRest fuel rest3 with
              | some (vs, rest4) => some (.arr (v :: vs), rest4)
              | none => none
            | none => none
      else if c = '\x7b' then
        match skipWs rest with
        | [] => none
        | c2 :: rest2 =>
          if c2 = '\x7d' then some (.obj [], rest2)
          else if c2 = '"' then
            match parseStrBody rest2 with
            | some (k, rest3) =>
              match skipWs rest3 with
              | [] => none
              | c3 :: rest4 =>
                if c3 = ':' then
                  match parseVal fuel rest4 with
                  | some (v, rest5) =>
                    match parseObjRest fuel rest5 with
                    | some (kvs, rest6) => some (.obj (buildObj ((k, v) :: kvs)), rest6)
                    | none => none
                  | none => none
                else none
            | none => none
          else none
      else (parseNum (c :: rest)).map (fun r => (.num r.1, r.2))

/-- The tail of an array literal after one element has been read:
either the closing bracket, or a comma and a further element. -/
def parseArrRest : Nat → List Char → Option (List JsonValue × List Char)
  | 0, _ => none
  | fuel + 1, cs =>
    match skipWs cs with
    | [] => none
    | c :: rest =>
      if c = ']' then some ([], rest)
      else if c = ',' then
        match parseVal fuel rest with
        | some (v, rest2) =>
          match parseArrRest fuel rest2 with
          | some (vs, rest3) => some (v :: vs, rest3)
          | none => none
        | none => none
      else none

/-- The tail of an object literal after one field has been read. -/
def parseObjRest : Nat → List Char → Option (List (List Char × JsonValue) × List Char)
  | 0, _ => none
  | fuel + 1, cs =>
    match skipWs cs with
    | [] => none
    | c :: rest =>
      if c = '\x7d' then some ([], rest)
      else if c = ',' then
        match skipWs rest with
        | [] => none
        | c2 :: rest2 =>
          if c2 = '"' then
            match parseStrBody rest2 with
            | some (k, rest3) =>
              match skipWs rest3 with
              | [] => none
              | c3 :: rest4 =>
                if c3 = ':' then
                  match parseVal fuel rest4 with
                  | some (v, rest5) =>
                    match parseObjRest fuel rest5 with
                    | some (kvs, rest6) => some ((k, v) :: kvs, rest6)
                    | none => none
                  | none => none
                else none
            | none => none
          else none
      else none
end

/-- Modelled from the spec: the host `JSON.parse` as a returned outcome —
the parsed value, or a SyntaxError message; the exact human-readable
message text of the host parser is abstracted.  A complete value
followed only by whitespace is accepted; anything else is a syntax
error. -/
def jsonParseE (cs : List Char) : Except (List Char) JsonValue :=
  match parseVal (cs.length + 1) cs with
  | some (v, rest) =>
    match skipWs rest with
    | [] => .ok v
    | _ => .error ("Unexpected non-whitespace character after JSON data".toList)
  | none => .error ("Unexpected token: the string is not valid JSON".toList)

/-- `JSON.parse` as used inside a `try`/`catch` that discards the error. -/
def jsonParseOpt (cs : List Char) : Option JsonValue :=
  (jsonParseE cs).toOption

/-- The recursive embedded-JSON resolver, translated from
`processRecursive` in the application source: a depth guard, then a
decode attempt on JSON-looking strings (recursing on the parsed value
at `currentDepth + 1`), then structural descent through arrays and
objects at the same depth, and all other values unchanged. -/
def processRecursive (data : JsonValue) (currentDepth maxDepth : Int) : JsonValue :=
  if currentDepth ≥ maxDepth then data
  else
    match data with
    | .str s =>
      if looksJson s then
        match jsonParseOpt s with
        | some parsed => processRecursive parsed (currentDepth + 1) maxDepth
        | none => .str s
      else .str s
    | .arr xs => .arr (xs.attach.map (fun x => processRecursive x.1 currentDepth maxDepth))
    | .obj kvs =>
      .obj (kvs.attach.map (fun kv => (kv.1.1, processRecursive kv.1.2 currentDepth maxDepth)))
    | other => other
termination_by ((maxDepth - currentDepth).toNat, sizeOf data)
decreasing_by
  · apply Prod.Lex.left
    omega
  · apply Prod.Lex.right'
    · omega
    · have hx := List.sizeOf_lt_of_mem x.2
      simp only [JsonValue.arr.sizeOf_spec]
      omega
  · apply Prod.Lex.right'
    · omega
    · have hkv := List.sizeOf_lt_of_mem kv.2
      have : sizeOf kv.1.2 < sizeOf kv.1 := by
        obtain ⟨⟨k1, v1⟩, hmem⟩ := kv
        simp only [Prod.mk.sizeOf_spec]
        omega
      simp only [JsonValue.obj.sizeOf_spec]
      omega

/-- The resolver configuration, from src/types.ts (`RecursiveConfig`). -/
structure RecursiveConfig where
  enabled : Bool
  maxDepth : Int

/-- JavaScript falsiness of a JSON value, as tested by
`!parseResult.data` in the `displayData` computation (null, false, 0
and the empty string are falsy). -/
def jsFalsy : JsonValue → Bool
  | .null => true
  | .bool b => !b
  | .num n => n == 0
  | .str s => s.isEmpty
  | .arr _ => false
  | .obj _ => false

/-- The top-level entry of the resolver, translated from the
`displayData` computation: if the parsed data is absent/falsy or the
recursive config is disabled the data is returned untouched, otherwise
it is resolved starting at depth 0. -/
def displayData (data : JsonValue) (config : RecursiveConfig) : JsonValue :=
  if jsFalsy data || !config.enabled then data
  else processRecursive data 0 config.maxDepth

/-- The outcome of one parse attempt, from the spec's `ParseOutcome`
(`ParseResult` in src/types.ts: `valid` flag, `data`, `error`). -/
inductive ParseOutcome where
  | valid (v : JsonValue) : ParseOutcome
  | invalid (msg : List Char) : ParseOutcome

/-- The parse effect translated from the application source: blank
input is the designated valid empty state (the same absence marker as
null), otherwise the outcome of `JSON.parse`, the caught error's
message passed through verbatim. -/
def parse (raw : List Char) : ParseOutcome :=
  if jsTrim raw = [] then .valid .null
  else
    match jsonParseE raw with
    | .ok v => .valid v
    | .error m => .invalid m

/-- The clamp applied in the UI configuration handler:
`Math.min(10, Math.max(1, val))`. -/
def clampMaxDepth (val : Int) : Int :=
  min 10 (max 1 val)

/-- The length of the longest chain of successful embedded-string
decodes performed by `processRecursive` on the given input: it follows
the resolver's recursion, counting one per decode and taking the
maximum over structural descent. -/
def decodeChain (data : JsonValue) (currentDepth maxDepth : Int) : Nat :=
  if currentDepth ≥ maxDepth then 0
  else
    match data with
    | .str s =>
      if looksJson s then
        match jsonParseOpt s with
        | some parsed => 1 + decodeChain parsed (currentDepth + 1) maxDepth
        | none => 0
      else 0
    | .arr xs => (xs.attach.map (fun x => decodeChain x.1 currentDepth maxDepth)).foldr max 0
    | .obj kvs =>
      (kvs.attach.map (fun kv => decodeChain kv.1.2 currentDepth maxDepth)).foldr max 0
    | _ => 0
termination_by ((maxDepth - currentDepth).toNat, sizeOf data)
decreasing_by
  · apply Prod.Lex.left
    omega
  · apply Prod.Lex.right'
    · omega
    · have hx := List.sizeOf_lt_of_mem x.2
      simp only [JsonValue.arr.sizeOf_spec]
      omega
  · apply Prod.Lex.right'
    · omega
    · have hkv := List.sizeOf_lt_of_mem kv.2
      have : sizeOf kv.1.2 < sizeOf kv.1 := by
        obtain ⟨⟨k1, v1⟩, hmem⟩ := kv
        simp only [Prod.mk.sizeOf_spec]
        omega
      simp only [JsonValue.obj.sizeOf_spec]
      omega

/-- A hexadecimal digit character (lowercase), as `JSON.stringify`
renders control-character escapes. -/
def hexDigitChar (n : Nat) : Char :=
  if n < 10 then Char.ofNat (48 + n) else Char.ofNat (87 + n)

/-- Decimal digits of a natural number, most significant first; the
fuel argument only drives the recursion and any amount above the
number itself is enough. -/
def natPrintAux : Nat → Nat → List Char
  | 0, _ => []
  | fuel + 1, n =>
    if n < 10 then [hexDigitChar n]
    else natPrintAux fuel (n / 10) ++ [hexDigitChar (n % 10)]

/-- Decimal digits of a natural number, most significant first. -/
def natPrint (n : Nat) : List Char :=
  natPrintAux (n + 1) n

/-- An integer rendered as `JSON.stringify` renders an integral
number. -/
def serNum (n : Int) : List Char :=
  if n < 0 then '-' :: natPrint (-n).toNat else natPrint n.toNat

/-- How `JSON.stringify` renders one character of a string: the quote
and backslash escapes, the short control escapes, `\u00xx` for the
remaining control characters, and everything else literally. -/
def escapeChar (c : Char) : List Char :=
  if c = '"' then ['\\', '"']
  else if c = '\\' then ['\\', '\\']
  else if c = '\x08' then ['\\', 'b']
  else if c = '\t' then ['\\', 't']
  else if c = '\n' then ['\\', 'n']
  else if c = '\x0c' then ['\\', 'f']
  else if c = '\x0d' then ['\\', 'r']
  else if c.toNat < 0x20 then
    ['\\', 'u', '0', '0', hexDigitChar (c.toNat / 16), hexDigitChar (c.toNat % 16)]
  else [c]

/-- The escaped body of a string literal. -/
def escapeStr : List Char → List Char
  | [] => []
  | c :: cs => escapeChar c ++ escapeStr cs

/-- A complete JSON string literal with its quotes. -/
def serStr (s : List Char) : List Char :=
  '"' :: (escapeStr s ++ ['"'])

mutual
/-- Modelled from the spec: the host `JSON.stringify` with no
indentation (the minified rendering used by `handleMinify`), with the
object key order taken from the value itself — the stable key order of
the spec. -/
def serialize : JsonValue → List Char
  | .null => "null".toList
  | .bool true => "true".toList
  | .bool false => "false".toList
  | .num n => serNum n
  | .str s => serStr s
  | .arr [] => "[]".toList
  | .arr (x :: xs) => '[' :: (serialize x ++ serElems xs ++ [']'])
  | .obj [] => "\x7b\x7d".toList
  | .obj (kv :: kvs) =>
    '\x7b' :: (serStr kv.1 ++ ':' :: serialize kv.2 ++ serFields kvs ++ ['\x7d'])

/-- The remaining elements of an array literal, each preceded by a
comma. -/
def serElems : List JsonValue → List Char
  | [] => []
  | x :: xs => ',' :: (serialize x ++ serElems xs)

/-- The remaining fields of an object literal, each preceded by a
comma. -/
def serFields : List (List Char × JsonValue) → List Char
  | [] => []
  | kv :: kvs => ',' :: (serStr kv.1 ++ ':' :: serialize kv.2 ++ serFields kvs)
end

mutual
/-- The call-depth budget `parseVal` needs to read back a serialized
value. -/
def jsize : JsonValue → Nat
  | .arr [] => 1
  | .arr (x :: xs) => 1 + jsize x + jrestSize xs
  | .obj [] => 1
  | .obj (kv :: kvs) => 1 + jsize kv.2 + jfrestSize kvs
  | _ => 1

/-- The call-depth budget `parseArrRest` needs for remaining array
elements. -/
def jrestSize : List JsonValue → Nat
  | [] => 1
  | x :: xs => 1 + jsize x + jrestSize xs

/-- The call-depth budget `parseObjRest` needs for remaining object
fields. -/
def jfrestSize : List (List Char × JsonValue) → Nat
  | [] => 1
  | kv :: kvs => 1 + jsize kv.2 + jfrestSize kvs
end

/-- Whether a key list is free of repetitions. -/
def keysNodupB : List (List Char) → Bool
  | [] => true
  | k :: ks => !(ks.contains k) && keysNodupB ks

mutual
/-- Every object in the tree has pairwise distinct keys — the
well-formedness every value held in a JavaScript object satisfies by
construction. -/
def noDupKeys : JsonValue → Bool
  | .arr xs => noDupKeysList xs
  | .obj kvs => keysNodupB (kvs.map Prod.fst) && noDupKeysFields kvs
  | _ => true

/-- `noDupKeys` over the elements of an array. -/
def noDupKeysList : List JsonValue → Bool
  | [] => true
  | x :: xs => noDupKeys x && noDupKeysList xs

/-- `noDupKeys` over the values of an object's fields. -/
def noDupKeysFields : List (List Char × JsonValue) → Bool
  | [] => true
  | kv :: kvs => noDupKeys kv.2 && noDupKeysFields kvs
end

/-- A JSON value whose string leaves are annotated with the
decode-depth at which the resolver left them: the number of successful
embedded-string decodes performed above them. -/
inductive AnnValue where
  | null : AnnValue
  | bool (b : Bool) : AnnValue
  | num (n : Int) : AnnValue
  | str (s : List Char) (depth : Int) : AnnValue
  | arr (elems : List AnnValue) : AnnValue
  | obj (fields : List (List Char × AnnValue)) : AnnValue

instance : Nonempty JsonValue := ⟨.null⟩

instance : Nonempty AnnValue := ⟨.null⟩

mutual
/-- Annotate every string leaf of an untouched subtree with the given
decode-depth. -/
def annotateAll : JsonValue → Int → AnnValue
  | .null, _ => .null
  | .bool b, _ => .bool b
  | .num n, _ => .num n
  | .str s, d => .str s d
  | .arr xs, d => .arr (annotateAllList xs d)
  | .obj kvs, d => .obj (annotateAllFields kvs d)

/-- `annotateAll` over array elements. -/
def annotateAllList : List JsonValue → Int → List AnnValue
  | [], _ => []
  | x :: xs, d => annotateAll x d :: annotateAllList xs d

/-- `annotateAll` over object fields. -/
def annotateAllFields : List (List Char × JsonValue) → Int → List (List Char × AnnValue)
  | [], _ => []
  | kv :: kvs, d => (kv.1, annotateAll kv.2 d) :: annotateAllFields kvs d
end

/-- The resolver with decode-depth bookkeeping: it performs exactly the
recursion of `processRecursive` and additionally records, on every
string leaf of the result, the decode-depth at which the resolver
stopped looking at it. -/
def annotate (data : JsonValue) (currentDepth maxDepth : Int) : AnnValue :=
  if currentDepth ≥ maxDepth then annotateAll data currentDepth
  else
    match data with
    | .str s =>
      if looksJson s then
        match jsonParseOpt s with
        | some parsed => annotate parsed (currentDepth + 1) maxDepth
        | none => .str s currentDepth
      else .str s currentDepth
    | .arr xs => .arr (xs.attach.map (fun x => annotate x.1 currentDepth maxDepth))
    | .obj kvs =>
      .obj (kvs.attach.map (fun kv => (kv.1.1, annotate kv.1.2 currentDepth maxDepth)))
    | .null => .null
    | .bool b => .bool b
    | .num n => .num n
termination_by ((maxDepth - currentDepth).toNat, sizeOf data)
decreasing_by
  · apply Prod.Lex.left
    omega
  · apply Prod.Lex.right'
    · omega
    · have hx := List.sizeOf_lt_of_mem x.2
      simp only [JsonValue.arr.sizeOf_spec]
      omega
  · apply Prod.Lex.right'
    · omega
    · have hkv := List.sizeOf_lt_of_mem kv.2
      have : sizeOf kv.1.2 < sizeOf kv.1 := by
        obtain ⟨⟨k1, v1⟩, hmem⟩ := kv
        simp only [Prod.mk.sizeOf_spec]
        omega
      simp only [JsonValue.obj.sizeOf_spec]
      omega

mutual
/-- Strip the decode-depth annotations. -/
def eraseAnn : AnnValue → JsonValue
  | .null => .null
  | .bool b => .bool b
  | .num n => .num n
  | .str s _ => .str s
  | .arr xs => .arr (eraseAnnList xs)
  | .obj kvs => .obj (eraseAnnFields kvs)

/-- `eraseAnn` over array elements. -/
def eraseAnnList : List AnnValue → List JsonValue
  | [] => []
  | x :: xs => eraseAnn x :: eraseAnnList xs

/-- `eraseAnn` over object fields. -/
def eraseAnnFields : List (List Char × AnnValue) → List (List Char × JsonValue)
  | [] => []
  | kv :: kvs => (kv.1, eraseAnn kv.2) :: eraseAnnFields kvs
end

mutual
/-- All string leaves of an annotated tree together with their
recorded decode-depths. -/
def annStrings : AnnValue → List (List Char × Int)
  | .null => []
  | .bool _ => []
  | .num _ => []
  | .str s d => [(s, d)]
  | .arr xs => annStringsList xs
  | .obj kvs => annStringsFields kvs

/-- `annStrings` over array elements. -/
def annStringsList : List AnnValue → List (List Char × Int)
  | [] => []
  | x :: xs => annStrings x ++ annStringsList xs

/-- `annStrings` over object fields. -/
def annStringsFields : List (List Char × AnnValue) → List (List Char × Int)
  | [] => []
  | kv :: kvs => annStrings kv.2 ++ annStringsFields kvs
end

theorem processRecursive_at_bound (v : JsonValue) (d m : Int) (h : m ≤ d) :
    processRecursive v d m = v := by
  rw [processRecursive.eq_def]
  rw [if_pos h]

theorem processRecursive_arr (xs : List JsonValue) (d m : Int) :
    processRecursive (.arr xs) d m = .arr (xs.map (fun x => processRecursive x d m)) := by
  by_cases h : d ≥ m
  · rw [processRecursive_at_bound _ _ _ h]
    have : xs.map (fun x => processRecursive x d m) = xs.map id :=
      List.map_congr_left (fun a _ => processRecursive_at_bound a d m h)
    rw [this, List.map_id]
  · rw [processRecursive.eq_def, if_neg h]
    exact congrArg JsonValue.arr (List.attach_map_coe xs (fun x => processRecursive x d m))

theorem processRecursive_obj (kvs : List (List Char × JsonValue)) (d m : Int) :
    processRecursive (.obj kvs) d m
      = .obj (kvs.map (fun kv => (kv.1, processRecursive kv.2 d m))) := by
  by_cases h : d ≥ m
  · rw [processRecursive_at_bound _ _ _ h]
    have : kvs.map (fun kv => (kv.1, processRecursive kv.2 d m)) = kvs.map id :=
      List.map_congr_left (fun a _ => by
        simp [processRecursive_at_bound a.2 d m h])
    rw [this, List.map_id]
  · rw [processRecursive.eq_def, if_neg h]
    exact congrArg JsonValue.obj
      (List.attach_map_coe kvs (fun kv => (kv.1, processRecursive kv.2 d m)))

theorem processRecursive_str_decode (s : List Char) (p : JsonValue) (d m : Int)
    (hd : d < m) (hl : looksJson s = true) (hp : jsonParseOpt s = some p) :
    processRecursive (.str s) d m = processRecursive p (d + 1) m := by
  rw [processRecursive.eq_def, if_neg (by omega)]
  simp only [hl, if_true, hp]

theorem processRecursive_str_stuck (s : List Char) (d m : Int)
    (h : looksJson s = false ∨ jsonParseOpt s = none) :
    processRecursive (.str s) d m = .str s := by
  by_cases hd : d ≥ m
  · exact processRecursive_at_bound _ _ _ hd
  · rw [processRecursive.eq_def, if_neg hd]
    cases h with
    | inl hl => simp only [hl, Bool.false_eq_true, if_false]
    | inr hp =>
      by_cases hl : looksJson s
      · simp only [hl, if_true, hp]
      · simp only [Bool.not_eq_true] at hl
        simp only [hl, Bool.false_eq_true, if_false]

theorem jsTrimLeft_head_not_ws {s : List Char} {c : Char} {t : List Char}
    (h : jsTrimLeft s = c :: t) : jsWhitespace c = false := by
  induction s with
  | nil => simp [jsTrimLeft] at h
  | cons a as ih =>
    rw [jsTrimLeft] at h
    by_cases ha : jsWhitespace a
    · rw [if_pos ha] at h
      exact ih h
    · rw [if_neg ha] at h
      injection h with h1 h2
      subst h1
      simpa using ha

theorem jsTrimRight_cons_not_ws {c : Char} (t : List Char) (hc : jsWhitespace c = false) :
    ∃ r, jsTrimRight (c :: t) = c :: r := by
  rw [jsTrimRight]
  cases h : jsTrimRight t with
  | nil => exact ⟨[], by simp [hc]⟩
  | cons b r => exact ⟨b :: r, rfl⟩

theorem looksJson_iff (s : List Char) :
    looksJson s = true ↔ (firstNonWs s = some '\x7b' ∨ firstNonWs s = some '[') := by
  unfold looksJson jsTrim firstNonWs
  cases h : jsTrimLeft s with
  | nil => simp [jsTrimRight]
  | cons c t =>
    have hc := jsTrimLeft_head_not_ws h
    obtain ⟨r, hr⟩ := jsTrimRight_cons_not_ws t hc
    rw [hr]
    simp [List.head?]

/-- C1: structural descent through arrays and objects resolves every
element / field value at the same depth, and depth increments by
exactly one only when a string leaf is successfully decoded, the
parsed result being resolved at `depth + 1` in place of the string. -/
theorem claim1_depth_increment_rule (d m : Int) :
    (∀ xs : List JsonValue,
        processRecursive (.arr xs) d m = .arr (xs.map (fun x => processRecursive x d m)))
  ∧ (∀ kvs : List (List Char × JsonValue),
        processRecursive (.obj kvs) d m
          = .obj (kvs.map (fun kv => (kv.1, processRecursive kv.2 d m))))
  ∧ (∀ s p, d < m → looksJson s = true → jsonParseOpt s = some p →
        processRecursive (.str s) d m = processRecursive p (d + 1) m) := by
  refine ⟨fun xs => processRecursive_arr xs d m,
    fun kvs => processRecursive_obj kvs d m,
    fun s p hd hl hp => processRecursive_str_decode s p d m hd hl hp⟩

/-- Witness for C1 at a concrete decodable string and depth. -/
theorem claim1_witness :
    (0 : Int) < 3 ∧ looksJson ("\x7b\x7d".toList) = true ∧
    jsonParseOpt ("\x7b\x7d".toList) = some (.obj []) ∧
    processRecursive (.str ("\x7b\x7d".toList)) 0 3 = processRecursive (.obj []) 1 3 :=
  ⟨by decide, rfl, rfl,
    (claim1_depth_increment_rule 0 3).2.2 ("\x7b\x7d".toList) (.obj []) (by decide) rfl rfl⟩

/-- C3: once the depth budget is exhausted (`depth ≥ maxDepth`), the
resolver returns the value unchanged — in particular
`resolve(v, maxDepth, config) = v`. -/
theorem claim3_idempotent_at_bound (v : JsonValue) (d m : Int) (h : m ≤ d) :
    processRecursive v d m = v :=
  processRecursive_at_bound v d m h

/-- Witness for C3: even a decodable embedded string is left untouched
when depth equals the bound. -/
theorem claim3_witness :
    (2 : Int) ≤ 2 ∧ processRecursive (.str ("[1]".toList)) 2 2 = .str ("[1]".toList) :=
  ⟨by decide, claim3_idempotent_at_bound (.str ("[1]".toList)) 2 2 (by decide)⟩

/-- C5: with a disabled config the top-level resolver entry returns the
value unchanged for every value and every maxDepth. -/
theorem claim5_disabled_noop (v : JsonValue) (m : Int) :
    displayData v ⟨false, m⟩ = v := by
  simp [displayData]

/-- C6: resolving an object yields an object with the same key list in
the same order, each field value resolved under the same depth rule. -/
theorem claim6_object_shape (kvs : List (List Char × JsonValue)) (d m : Int) :
    processRecursive (.obj kvs) d m
      = .obj (kvs.map (fun kv => (kv.1, processRecursive kv.2 d m)))
  ∧ (kvs.map (fun kv => (kv.1, processRecursive kv.2 d m))).map Prod.fst
      = kvs.map Prod.fst := by
  refine ⟨processRecursive_obj kvs d m, ?_⟩
  rw [List.map_map]
  rfl

/-- C2: below the bound, a string leaf is replaced by the resolution of
its parse exactly when its first non-whitespace character is a curly
brace or bracket and it parses as JSON; otherwise — including strings
whose content is a JSON scalar, and JSON-looking but malformed
strings — it is returned unchanged. -/
theorem claim2_string_gate (s : List Char) (d m : Int) (hd : d < m) :
    (∀ p, (firstNonWs s = some '\x7b' ∨ firstNonWs s = some '[') →
        jsonParseOpt s = some p →
        processRecursive (.str s) d m = processRecursive p (d + 1) m)
  ∧ (¬ (firstNonWs s = some '\x7b' ∨ firstNonWs s = some '[') ∨ jsonParseOpt s = none →
        processRecursive (.str s) d m = .str s) := by
  constructor
  · intro p hf hp
    exact processRecursive_str_decode s p d m hd ((looksJson_iff s).mpr hf) hp
  · intro h
    rcases h with hf | hp
    · refine processRecursive_str_stuck s d m (Or.inl ?_)
      rcases hb : looksJson s with _ | _
      · rfl
      · exact absurd ((looksJson_iff s).mp hb) hf
    · exact processRecursive_str_stuck s d m (Or.inr hp)

/-- Witness for C2: the scalar string "42" and a malformed JSON-looking
string both come back unchanged. -/
theorem claim2_witness :
    (0 : Int) < 3
  ∧ (¬ (firstNonWs ("42".toList) = some '\x7b' ∨ firstNonWs ("42".toList) = some '[')
      ∧ processRecursive (.str ("42".toList)) 0 3 = .str ("42".toList))
  ∧ (jsonParseOpt ("\x7boops".toList) = none
      ∧ processRecursive (.str ("\x7boops".toList)) 0 3 = .str ("\x7boops".toList)) :=
  ⟨by decide,
    ⟨by decide, (claim2_string_gate ("42".toList) 0 3 (by decide)).2 (Or.inl (by decide))⟩,
    ⟨rfl, (claim2_string_gate ("\x7boops".toList) 0 3 (by decide)).2 (Or.inr rfl)⟩⟩

/-- C10: the resolver itself never validates `maxDepth`: for any bound
at most 0 the very first depth check already fires and the input is
returned unchanged; the clamp to [1, 10] lives only in the UI
configuration handler. -/
theorem claim10_no_validation (v : JsonValue) (m : Int) (h : m ≤ 0) :
    processRecursive v 0 m = v
  ∧ (∀ val : Int, 1 ≤ clampMaxDepth val ∧ clampMaxDepth val ≤ 10) := by
  refine ⟨processRecursive_at_bound v 0 m h, fun val => ?_⟩
  unfold clampMaxDepth
  omega

/-- Witness for C10 at `maxDepth = -5` on a decodable string. -/
theorem claim10_witness :
    (-5 : Int) ≤ 0 ∧ processRecursive (.str ("[1]".toList)) 0 (-5) = .str ("[1]".toList) :=
  ⟨by decide, (claim10_no_validation (.str ("[1]".toList)) (-5) (by decide)).1⟩

theorem foldr_max_le {l : List Nat} {b : Nat} (h : ∀ x ∈ l, x ≤ b) :
    l.foldr max 0 ≤ b := by
  induction l with
  | nil => simp
  | cons a as ih =>
    simp only [List.foldr_cons]
    have ha := h a (by simp)
    have hrest := ih (fun x hx => h x (by simp [hx]))
    omega

theorem decodeChain_le : ∀ (v : JsonValue) (d m : Int), decodeChain v d m ≤ (m - d).toNat
  | v, d, m => by
    by_cases h : d ≥ m
    · rw [decodeChain.eq_def, if_pos h]
      simp
    · cases v with
      | str s =>
        rw [decodeChain.eq_def, if_neg h]
        by_cases hl : looksJson s
        · simp only [hl, if_true]
          cases hp : jsonParseOpt s with
          | some p =>
            have ih := decodeChain_le p (d + 1) m
            simp only []
            omega
          | none => simp
        · simp only [Bool.not_eq_true] at hl
          simp [hl]
      | arr xs =>
        rw [decodeChain.eq_def, if_neg h]
        refine foldr_max_le ?_
        intro x hx
        simp only [List.mem_map, List.mem_attach, true_and, Subtype.exists] at hx
        obtain ⟨y, hy, rfl⟩ := hx
        exact decodeChain_le y d m
      | obj kvs =>
        rw [decodeChain.eq_def, if_neg h]
        refine foldr_max_le ?_
        intro x hx
        simp only [List.mem_map, List.mem_attach, true_and, Subtype.exists] at hx
        obtain ⟨y, hy, rfl⟩ := hx
        exact decodeChain_le y.2 d m
      | null => rw [decodeChain.eq_def, if_neg h]; simp
      | bool b => rw [decodeChain.eq_def, if_neg h]; simp
      | num n => rw [decodeChain.eq_def, if_neg h]; simp
termination_by v d m => ((m - d).toNat, sizeOf v)
decreasing_by
  · apply Prod.Lex.left
    omega
  · apply Prod.Lex.right'
    · omega
    · have hx := List.sizeOf_lt_of_mem hy
      simp only [JsonValue.arr.sizeOf_spec]
      omega
  · apply Prod.Lex.right'
    · omega
    · have hkv := List.sizeOf_lt_of_mem hy
      have : sizeOf y.2 < sizeOf y := by
        obtain ⟨k1, v1⟩ := y
        simp only [Prod.mk.sizeOf_spec]
        omega
      simp only [JsonValue.obj.sizeOf_spec]
      omega

/-- C4: the resolver terminates on every input (it is a total function
of this development), and every chain of successful embedded-string
decodes it performs is bounded: from depth `d` at most
`(maxDepth - d)` decodes remain, so a top-level resolution performs at
most `maxDepth` decode rounds. -/
theorem claim4_decode_bound (v : JsonValue) (d m : Int) :
    decodeChain v d m ≤ (m - d).toNat ∧ decodeChain v 0 m ≤ m.toNat := by
  refine ⟨decodeChain_le v d m, ?_⟩
  have := decodeChain_le v 0 m
  simpa using this

/-- C7: the parse contract — blank input yields Valid with the
designated absence value; otherwise a successful grammar parse yields
Valid with the value and a syntax violation yields Invalid carrying
the underlying parser's message verbatim; failure is a returned value
(`parse` is a total function), never an exception. -/
theorem claim7_parse_contract (raw : List Char) :
    (jsTrim raw = [] → parse raw = .valid .null)
  ∧ (∀ v, jsTrim raw ≠ [] → jsonParseE raw = .ok v → parse raw = .valid v)
  ∧ (∀ msg, jsTrim raw ≠ [] → jsonParseE raw = .error msg → parse raw = .invalid msg) := by
  refine ⟨fun h => ?_, fun v hne hok => ?_, fun msg hne herr => ?_⟩
  · simp [parse, h]
  · simp [parse, hne, hok]
  · simp [parse, hne, herr]

/-- Witness for C7: blank input, a valid document, and a truncated
document. -/
theorem claim7_witness :
    (jsTrim ("  ".toList) = [] ∧ parse ("  ".toList) = .valid .null)
  ∧ (jsonParseE ("[1]".toList) = .ok (.arr [.num 1])
      ∧ parse ("[1]".toList) = .valid (.arr [.num 1]))
  ∧ (jsonParseE ("\x7b\"a\":1,".toList)
        = .error ("Unexpected token: the string is not valid JSON".toList)
      ∧ parse ("\x7b\"a\":1,".toList)
        = .invalid ("Unexpected token: the string is not valid JSON".toList)) :=
  ⟨⟨rfl, (claim7_parse_contract ("  ".toList)).1 rfl⟩,
    ⟨rfl, (claim7_parse_contract ("[1]".toList)).2.1 (.arr [.num 1]) (by decide) rfl⟩,
    ⟨rfl, (claim7_parse_contract ("\x7b\"a\":1,".toList)).2.2 _ (by decide) rfl⟩⟩

theorem eraseAnnList_map (l : List AnnValue) : eraseAnnList l = l.map eraseAnn := by
  induction l with
  | nil => rfl
  | cons a as ih => rw [eraseAnnList, ih, List.map_cons]

theorem eraseAnnFields_map (l : List (List Char × AnnValue)) :
    eraseAnnFields l = l.map (fun kv => (kv.1, eraseAnn kv.2)) := by
  induction l with
  | nil => rfl
  | cons a as ih => rw [eraseAnnFields, ih, List.map_cons]

mutual
theorem annotateAll_erase : ∀ (v : JsonValue) (d : Int), eraseAnn (annotateAll v d) = v
  | .null, _ => rfl
  | .bool _, _ => rfl
  | .num _, _ => rfl
  | .str _, _ => rfl
  | .arr xs, d => by
    rw [annotateAll, eraseAnn, annotateAllList_erase xs d]
  | .obj kvs, d => by
    rw [annotateAll, eraseAnn, annotateAllFields_erase kvs d]

theorem annotateAllList_erase :
    ∀ (xs : List JsonValue) (d : Int), eraseAnnList (annotateAllList xs d) = xs
  | [], _ => rfl
  | x :: xs, d => by
    rw [annotateAllList, eraseAnnList, annotateAll_erase x d, annotateAllList_erase xs d]

theorem annotateAllFields_erase :
    ∀ (kvs : List (List Char × JsonValue)) (d : Int),
      eraseAnnFields (annotateAllFields kvs d) = kvs
  | [], _ => rfl
  | kv :: kvs, d => by
    rw [annotateAllFields, eraseAnnFields, annotateAll_erase kv.2 d,
      annotateAllFields_erase kvs d]
end

mutual
theorem annotateAll_depth :
    ∀ (v : JsonValue) (d : Int) (s : List Char) (δ : Int),
      (s, δ) ∈ annStrings (annotateAll v d) → δ = d
  | .null, d, s, δ => by simp [annotateAll, annStrings]
  | .bool b, d, s, δ => by simp [annotateAll, annStrings]
  | .num n, d, s, δ => by simp [annotateAll, annStrings]
  | .str s0, d, s, δ => by
    rw [annotateAll, annStrings]
    intro h
    simp at h
    exact h.2
  | .arr xs, d, s, δ => by
    rw [annotateAll, annStrings]
    exact annotateAllList_depth xs d s δ
  | .obj kvs, d, s, δ => by
    rw [annotateAll, annStrings]
    exact annotateAllFields_depth kvs d s δ

theorem annotateAllList_depth :
    ∀ (xs : List JsonValue) (d : Int) (s : List Char) (δ : Int),
      (s, δ) ∈ annStringsList (annotateAllList xs d) → δ = d
  | [], d, s, δ => by simp [annotateAllList, annStringsList]
  | x :: xs, d, s, δ => by
    rw [annotateAllList, annStringsList]
    intro h
    rcases List.mem_append.mp h with h1 | h2
    · exact annotateAll_depth x d s δ h1
    · exact annotateAllList_depth xs d s δ h2

theorem annotateAllFields_depth :
    ∀ (kvs : List (List Char × JsonValue)) (d : Int) (s : List Char) (δ : Int),
      (s, δ) ∈ annStringsFields (annotateAllFields kvs d) → δ = d
  | [], d, s, δ => by simp [annotateAllFields, annStringsFields]
  | kv :: kvs, d, s, δ => by
    rw [annotateAllFields, annStringsFields]
    intro h
    rcases List.mem_append.mp h with h1 | h2
    · exact annotateAll_depth kv.2 d s δ h1
    · exact annotateAllFields_depth kvs d s δ h2
end

theorem mem_annStringsList {p : List Char × Int} :
    ∀ {l : List AnnValue}, p ∈ annStringsList l ↔ ∃ a ∈ l, p ∈ annStrings a := by
  intro l
  induction l with
  | nil => simp [annStringsList]
  | cons a as ih =>
    rw [annStringsList]
    simp [List.mem_append, ih]

theorem mem_annStringsFields {p : List Char × Int} :
    ∀ {l : List (List Char × AnnValue)},
      p ∈ annStringsFields l ↔ ∃ a ∈ l, p ∈ annStrings a.2 := by
  intro l
  induction l with
  | nil => simp [annStringsFields]
  | cons a as ih =>
    rw [annStringsFields]
    simp [List.mem_append, ih]

theorem annotate_erase : ∀ (v : JsonValue) (d m : Int),
    eraseAnn (annotate v d m) = processRecursive v d m
  | v, d, m => by
    by_cases h : d ≥ m
    · rw [annotate.eq_def, if_pos h, processRecursive_at_bound v d m h]
      exact annotateAll_erase v d
    · cases v with
      | str s =>
        rw [annotate.eq_def, if_neg h]
        by_cases hl : looksJson s
        · simp only [hl, if_true]
          cases hp : jsonParseOpt s with
          | some p =>
            rw [processRecursive_str_decode s p d m (by omega) hl hp]
            exact annotate_erase p (d + 1) m
          | none =>
            rw [processRecursive_str_stuck s d m (Or.inr hp)]
            rfl
        · simp only [Bool.not_eq_true] at hl
          simp only [hl, Bool.false_eq_true, if_false]
          rw [processRecursive_str_stuck s d m (Or.inl hl)]
          rfl
      | arr xs =>
        rw [annotate.eq_def, if_neg h, processRecursive_arr]
        show JsonValue.arr (eraseAnnList _) = _
        rw [eraseAnnList_map, List.map_map]
        refine congrArg JsonValue.arr ?_
        rw [← List.attach_map_coe xs (fun x => processRecursive x d m)]
        refine List.map_congr_left ?_
        intro a _
        exact annotate_erase a.1 d m
      | obj kvs =>
        rw [annotate.eq_def, if_neg h, processRecursive_obj]
        show JsonValue.obj (eraseAnnFields _) = _
        rw [eraseAnnFields_map, List.map_map]
        refine congrArg JsonValue.obj ?_
        rw [← List.attach_map_coe kvs (fun kv => (kv.1, processRecursive kv.2 d m))]
        refine List.map_congr_left ?_
        intro a _
        show (a.1.1, eraseAnn (annotate a.1.2 d m)) = (a.1.1, processRecursive a.1.2 d m)
        rw [annotate_erase a.1.2 d m]
      | null => rw [annotate.eq_def, if_neg h, processRecursive.eq_def, if_neg h]; rfl
      | bool b => rw [annotate.eq_def, if_neg h, processRecursive.eq_def, if_neg h]; rfl
      | num n => rw [annotate.eq_def, if_neg h, processRecursive.eq_def, if_neg h]; rfl
termination_by v d m => ((m - d).toNat, sizeOf v)
decreasing_by
  · apply Prod.Lex.left
    omega
  · apply Prod.Lex.right'
    · omega
    · have hx := List.sizeOf_lt_of_mem a.2
      simp only [JsonValue.arr.sizeOf_spec]
      omega
  · apply Prod.Lex.right'
    · omega
    · have hkv := List.sizeOf_lt_of_mem a.2
      have : sizeOf a.1.2 < sizeOf a.1 := by
        obtain ⟨⟨k1, v1⟩, hmem⟩ := a
        simp only [Prod.mk.sizeOf_spec]
        omega
      simp only [JsonValue.obj.sizeOf_spec]
      omega

theorem annotate_strings_bound : ∀ (v : JsonValue) (d m : Int) (s : List Char) (δ : Int),
    (s, δ) ∈ annStrings (annotate v d m) → δ < m →
    looksJson s = false ∨ jsonParseOpt s = none
  | v, d, m, s, δ => by
    by_cases h : d ≥ m
    · rw [annotate.eq_def, if_pos h]
      intro hmem hδ
      have := annotateAll_depth v d s δ hmem
      omega
    · cases v with
      | str s0 =>
        rw [annotate.eq_def, if_neg h]
        by_cases hl : looksJson s0
        · simp only [hl, if_true]
          cases hp : jsonParseOpt s0 with
          | some p => exact fun hmem hδ => annotate_strings_bound p (d + 1) m s δ hmem hδ
          | none =>
            intro hmem hδ
            rw [annStrings] at hmem
            simp at hmem
            obtain ⟨rfl, rfl⟩ := hmem
            exact Or.inr hp
        · simp only [Bool.not_eq_true] at hl
          simp only [hl, Bool.false_eq_true, if_false]
          intro hmem hδ
          rw [annStrings] at hmem
          simp at hmem
          obtain ⟨rfl, rfl⟩ := hmem
          exact Or.inl hl
      | arr xs =>
        rw [annotate.eq_def, if_neg h]
        intro hmem hδ
        rw [annStrings] at hmem
        obtain ⟨a, ha, hmem2⟩ := mem_annStringsList.mp hmem
        simp only [List.mem_map, List.mem_attach, true_and, Subtype.exists] at ha
        obtain ⟨y, hy, rfl⟩ := ha
        exact annotate_strings_bound y d m s δ hmem2 hδ
      | obj kvs =>
        rw [annotate.eq_def, if_neg h]
        intro hmem hδ
        rw [annStrings] at hmem
        obtain ⟨a, ha, hmem2⟩ := mem_annStringsFields.mp hmem
        simp only [List.mem_map, List.mem_attach, true_and, Subtype.exists] at ha
        obtain ⟨y, hy, hya⟩ := ha
        have : a.2 = annotate y.2 d m := by rw [← hya]
        rw [this] at hmem2
        exact annotate_strings_bound y.2 d m s δ hmem2 hδ
      | null =>
        rw [annotate.eq_def, if_neg h]
        intro hmem
        rw [annStrings] at hmem
        simp at hmem
      | bool b =>
        rw [annotate.eq_def, if_neg h]
        intro hmem
        rw [annStrings] at hmem
        simp at hmem
      | num n =>
        rw [annotate.eq_def, if_neg h]
        intro hmem
        rw [annStrings] at hmem
        simp at hmem
termination_by v d m => ((m - d).toNat, sizeOf v)
decreasing_by
  · apply Prod.Lex.left
    omega
  · apply Prod.Lex.right'
    · omega
    · have hx := List.sizeOf_lt_of_mem hy
      simp only [JsonValue.arr.sizeOf_spec]
      omega
  · apply Prod.Lex.right'
    · omega
    · have hkv := List.sizeOf_lt_of_mem hy
      have : sizeOf y.2 < sizeOf y := by
        obtain ⟨k1, v1⟩ := y
        simp only [Prod.mk.sizeOf_spec]
        omega
      simp only [JsonValue.obj.sizeOf_spec]
      omega

/-- C9: the output of a top-level resolution is fully resolved below
the bound — writing the resolver with decode-depth bookkeeping
(`annotate`, whose erasure is exactly `processRecursive`), every string
leaf it leaves at a decode-depth strictly below `maxDepth` either does
not begin with a brace or bracket after trimming, or fails to parse as
JSON. -/
theorem claim9_fully_resolved (v : JsonValue) (m : Int) :
    eraseAnn (annotate v 0 m) = processRecursive v 0 m
  ∧ (∀ s δ, (s, δ) ∈ annStrings (annotate v 0 m) → δ < m →
      looksJson s = false ∨ jsonParseOpt s = none) :=
  ⟨annotate_erase v 0 m, fun s δ hmem hδ => annotate_strings_bound v 0 m s δ hmem hδ⟩

/-- Witness for C9 at a plain string leaf below the bound. -/
theorem claim9_witness :
    (("hello".toList, (0 : Int)) ∈ annStrings (annotate (.str ("hello".toList)) 0 3))
  ∧ (0 : Int) < 3
  ∧ (looksJson ("hello".toList) = false ∨ jsonParseOpt ("hello".toList) = none) := by
  have heval : annotate (.str ("hello".toList)) 0 3 = .str ("hello".toList) 0 := by
    rw [annotate.eq_def]
    rfl
  have hmem : (("hello".toList, (0 : Int)))
      ∈ annStrings (annotate (.str ("hello".toList)) 0 3) := by
    rw [heval, annStrings]
    simp
  exact ⟨hmem, by decide,
    (claim9_fully_resolved (.str ("hello".toList)) 3).2 ("hello".toList) 0 hmem (by decide)⟩

theorem isDigit_toNat {c : Char} (h : c.isDigit = true) : 48 ≤ c.toNat ∧ c.toNat ≤ 57 := by
  simp [Char.isDigit, Char.le_def, decide_eq_true_eq] at h
  exact ⟨h.1, h.2⟩

theorem ne_of_isDigit {c : Char} (h : c.isDigit = true) (d : Char) (hd : d.isDigit = false) :
    c ≠ d := by
  intro he
  rw [he, hd] at h
  exact Bool.false_ne_true h

theorem jsonWs_eq_false_of_isDigit {c : Char} (h : c.isDigit = true) : jsonWs c = false := by
  have h1 := ne_of_isDigit h ' ' (by decide)
  have h2 := ne_of_isDigit h '\t' (by decide)
  have h3 := ne_of_isDigit h '\n' (by decide)
  have h4 := ne_of_isDigit h '\r' (by decide)
  simp [jsonWs, h1, h2, h3, h4]

theorem jsWhitespace_eq_false_of_isDigit {c : Char} (h : c.isDigit = true) :
    jsWhitespace c = false := by
  have hb := isDigit_toNat h
  simp only [jsWhitespace, Bool.or_eq_false_iff, Bool.and_eq_false_iff,
    decide_eq_false_iff_not, not_le]
  omega

theorem skipWs_cons_of_not_ws {c : Char} (t : List Char) (h : jsonWs c = false) :
    skipWs (c :: t) = c :: t := by
  simp [skipWs, h]

theorem codeToChar_toNat (c : Char) : codeToChar c.toNat = some c := by
  have hv : (c.toNat).isValidChar := c.valid
  rw [codeToChar, dif_pos hv]
  congr 1

theorem hexVal_hexDigitChar : ∀ n, n < 16 → hexVal (hexDigitChar n) = some n := by decide

theorem hexDigitChar_isDigit : ∀ n, n < 10 → (hexDigitChar n).isDigit = true := by decide

theorem hexDigitChar_toNat : ∀ n, n < 10 → (hexDigitChar n).toNat = 48 + n := by decide

theorem natPrintAux_congr : ∀ (f g n : Nat), n < f → n < g → natPrintAux f n = natPrintAux g n
  | f + 1, g + 1, n, hf, hg => by
    rw [natPrintAux, natPrintAux]
    by_cases h : n < 10
    · simp [h]
    · simp only [h, if_false]
      rw [natPrintAux_congr f g (n / 10) (by omega) (by omega)]
  | 0, _, _, hf, _ => absurd hf (by omega)
  | _ + 1, 0, _, _, hg => absurd hg (by omega)

theorem natPrint_eq (n : Nat) :
    natPrint n
      = if n < 10 then [hexDigitChar n] else natPrint (n / 10) ++ [hexDigitChar (n % 10)] := by
  rw [natPrint, natPrintAux]
  by_cases h : n < 10
  · simp [h]
  · simp only [h, if_false]
    rw [natPrintAux_congr n (n / 10 + 1) (n / 10) (by omega) (by omega)]
    rfl

theorem natPrint_cons : ∀ n : Nat, ∃ c t,
    natPrint n = c :: t ∧ c.isDigit = true ∧ (c = '0' ↔ n = 0)
  | n => by
    rw [natPrint_eq]
    by_cases h : n < 10
    · refine ⟨hexDigitChar n, [], by simp [h], hexDigitChar_isDigit n h, ?_, ?_⟩
      · intro hc
        have := congrArg Char.toNat hc
        rw [hexDigitChar_toNat n h] at this
        simpa using this
      · rintro rfl
        decide
    · obtain ⟨c, t, hct, hd, hz⟩ := natPrint_cons (n / 10)
      refine ⟨c, t ++ [hexDigitChar (n % 10)], by simp [h, hct], hd, ?_, ?_⟩
      · intro hc
        have := hz.mp hc
        omega
      · intro hn
        omega
termination_by n => n
decreasing_by omega

theorem parseDigits_stop (acc : Nat) {rest : List Char} (h : headIsDigit rest = false) :
    parseDigits acc rest = (acc, rest) := by
  cases rest with
  | nil => rfl
  | cons c t =>
    rw [headIsDigit] at h
    simp [parseDigits, h]

theorem parseDigits_run : ∀ (n acc : Nat) (rest : List Char),
    parseDigits acc (natPrint n ++ rest)
      = parseDigits (acc * 10 ^ (natPrint n).length + n) rest
  | n, acc, rest => by
    rw [natPrint_eq]
    by_cases h : n < 10
    · simp only [h, if_true, List.singleton_append, List.length_cons, List.length_nil]
      rw [parseDigits]
      simp [hexDigitChar_isDigit n h, hexDigitChar_toNat n h]
    · simp only [h, if_false, List.append_assoc]
      rw [parseDigits_run (n / 10) acc _, List.singleton_append, parseDigits]
      have h10 : (hexDigitChar (n % 10)).isDigit = true := hexDigitChar_isDigit _ (by omega)
      simp only [h10, if_true, hexDigitChar_toNat _ (by omega : n % 10 < 10),
        List.length_append, List.length_cons, List.length_nil]
      have harith : (acc * 10 ^ (natPrint (n / 10)).length + n / 10) * 10 + (48 + n % 10 - 48)
          = acc * 10 ^ ((natPrint (n / 10)).length + (0 + 1)) + n := by
        rw [pow_succ, ← mul_assoc]
        generalize acc * 10 ^ (natPrint (n / 10)).length = A
        omega
      rw [harith]
termination_by n => n
decreasing_by omega

theorem parseUNat_natPrint (n : Nat) {rest : List Char} (h : headIsDigit rest = false) :
    parseUNat (natPrint n ++ rest) = some (n, rest) := by
  by_cases h0 : n = 0
  · subst h0
    have hz : natPrint 0 = ['0'] := by
      rw [natPrint_eq]
      norm_num
      decide
    rw [hz, List.singleton_append, parseUNat]
    simp [h]
  · obtain ⟨c, t, hct, hd, hz⟩ := natPrint_cons n
    have run := parseDigits_run n 0 rest
    rw [parseDigits_stop _ h] at run
    rw [hct, List.cons_append, parseDigits] at run
    simp only [hd, if_true] at run
    rw [hct, List.cons_append, parseUNat]
    have hc0 : ¬ c = '0' := fun hh => h0 (hz.mp hh)
    simp only [hc0, if_false, hd, if_true]
    rw [show 0 * 10 + (c.toNat - 48) = c.toNat - 48 by omega] at run
    rw [run]
    simp

theorem parseNum_serNum (i : Int) {rest : List Char} (h : headIsDigit rest = false) :
    parseNum (serNum i ++ rest) = some (i, rest) := by
  rw [serNum]
  by_cases hneg : i < 0
  · simp only [hneg, if_true]
    rw [List.cons_append, parseNum, if_pos (rfl : ('-' : Char) = '-')]
    rw [parseUNat_natPrint _ h]
    simp only [Option.map_some', Option.some.injEq, Prod.mk.injEq, and_true]
    omega
  · simp only [hneg, if_false]
    obtain ⟨c, t, hct, hd, hz⟩ := natPrint_cons i.toNat
    rw [hct, List.cons_append, parseNum]
    rw [if_neg (ne_of_isDigit hd '-' (by decide))]
    rw [← List.cons_append, ← hct, parseUNat_natPrint _ h]
    simp only [Option.map_some', Option.some.injEq, Prod.mk.injEq, and_true]
    omega


theorem strStep_quote (X : List Char) : strStep ('"' :: X) = some (none, X) := by
  simp [strStep]

theorem strStep_lit {c : Char} (h1 : ¬ c = '"') (h2 : ¬ c = '\\')
    (h3 : ¬ c.toNat < 0x20) (X : List Char) :
    strStep (c :: X) = some (some c, X) := by
  simp [strStep, h1, h2, h3]

theorem strStep_abbrev {e ch : Char} (he : ¬ e = 'u') (ha : escAbbrev e = some ch)
    (X : List Char) :
    strStep ('\\' :: e :: X) = some (some ch, X) := by
  simp [strStep, he, ha]

theorem strStep_hex {c : Char} (h : c.toNat < 0x20) (X : List Char) :
    strStep ('\\' :: 'u' :: '0' :: '0' ::
        hexDigitChar (c.toNat / 16) :: hexDigitChar (c.toNat % 16) :: X)
      = some (some c, X) := by
  have e1 := hexVal_hexDigitChar (c.toNat / 16) (by omega)
  have e2 := hexVal_hexDigitChar (c.toNat % 16) (by omega)
  have hn : ¬ (55296 ≤ c.toNat / 16 * 16 + c.toNat % 16
      ∧ c.toNat / 16 * 16 + c.toNat % 16 ≤ 56319) := by omega
  have hco : c.toNat / 16 * 16 + c.toNat % 16 = c.toNat := by omega
  simp only [strStep, hex4, e1, e2, show hexVal '0' = some 0 from rfl]
  simp only [show (0 : Nat) * 4096 + 0 * 256 + c.toNat / 16 * 16 + c.toNat % 16
      = c.toNat / 16 * 16 + c.toNat % 16 by omega]
  simp [hn, hco, codeToChar_toNat]
  intro ha
  exact absurd ha (by omega)

theorem parseStrBodyF_escape : ∀ (s : List Char) (fuel : Nat) (rest : List Char),
    parseStrBodyF (s.length + 1 + fuel) (escapeStr s ++ '"' :: rest) = some (s, rest)
  | [], fuel, rest => by
    rw [escapeStr, List.nil_append]
    rw [show ([] : List Char).length + 1 + fuel = fuel + 1 by simp; omega]
    rw [parseStrBodyF]
    simp [strStep_quote]
  | c :: s, fuel, rest => by
    rw [show (c :: s).length + 1 + fuel = (s.length + 1 + fuel) + 1 by
      simp only [List.length_cons]; omega]
    rw [escapeStr, List.append_assoc, escapeChar, parseStrBodyF]
    by_cases h1 : c = '"'
    · subst h1
      rw [if_pos rfl]
      rw [show (['\\', '"'] : List Char) ++ (escapeStr s ++ '"' :: rest)
          = '\\' :: '"' :: (escapeStr s ++ '"' :: rest) from rfl]
      simp only [strStep_abbrev (by decide : ¬ ('"' : Char) = 'u')
        (by decide : escAbbrev '"' = some '"')]
      rw [parseStrBodyF_escape s fuel rest]
      rfl
    · rw [if_neg h1]
      by_cases h2 : c = '\\'
      · subst h2
        rw [if_pos rfl]
        rw [show (['\\', '\\'] : List Char) ++ (escapeStr s ++ '"' :: rest)
            = '\\' :: '\\' :: (escapeStr s ++ '"' :: rest) from rfl]
        simp only [strStep_abbrev (by decide : ¬ ('\\' : Char) = 'u')
          (by decide : escAbbrev '\\' = some '\\')]
        rw [parseStrBodyF_escape s fuel rest]
        rfl
      · rw [if_neg h2]
        by_cases h3 : c = '\x08'
        · subst h3
          rw [if_pos rfl]
          rw [show (['\\', 'b'] : List Char) ++ (escapeStr s ++ '"' :: rest)
              = '\\' :: 'b' :: (escapeStr s ++ '"' :: rest) from rfl]
          simp only [strStep_abbrev (by decide : ¬ ('b' : Char) = 'u')
            (by decide : escAbbrev 'b' = some '\x08')]
          rw [parseStrBodyF_escape s fuel rest]
          rfl
        · rw [if_neg h3]
          by_cases h4 : c = '\t'
          · subst h4
            rw [if_pos rfl]
            rw [show (['\\', 't'] : List Char) ++ (escapeStr s ++ '"' :: rest)
                = '\\' :: 't' :: (escapeStr s ++ '"' :: rest) from rfl]
            simp only [strStep_abbrev (by decide : ¬ ('t' : Char) = 'u')
              (by decide : escAbbrev 't' = some '\t')]
            rw [parseStrBodyF_escape s fuel rest]
            rfl
          · rw [if_neg h4]
            by_cases h5 : c = '\n'
            · subst h5
              rw [if_pos rfl]
              rw [show (['\\', 'n'] : List Char) ++ (escapeStr s ++ '"' :: rest)
                  = '\\' :: 'n' :: (escapeStr s ++ '"' :: rest) from rfl]
              simp only [strStep_abbrev (by decide : ¬ ('n' : Char) = 'u')
                (by decide : escAbbrev 'n' = some '\n')]
              rw [parseStrBodyF_escape s fuel rest]
              rfl
            · rw [if_neg h5]
              by_cases h6 : c = '\x0c'
              · subst h6
                rw [if_pos rfl]
                rw [show (['\\', 'f'] : List Char) ++ (escapeStr s ++ '"' :: rest)
                    = '\\' :: 'f' :: (escapeStr s ++ '"' :: rest) from rfl]
                simp only [strStep_abbrev (by decide : ¬ ('f' : Char) = 'u')
                  (by decide : escAbbrev 'f' = some '\x0c')]
                rw [parseStrBodyF_escape s fuel rest]
                rfl
              · rw [if_neg h6]
                by_cases h7 : c = '\x0d'
                · subst h7
                  rw [if_pos rfl]
                  rw [show (['\\', 'r'] : List Char) ++ (escapeStr s ++ '"' :: rest)
                      = '\\' :: 'r' :: (escapeStr s ++ '"' :: rest) from rfl]
                  simp only [strStep_abbrev (by decide : ¬ ('r' : Char) = 'u')
                    (by decide : escAbbrev 'r' = some '\x0d')]
                  rw [parseStrBodyF_escape s fuel rest]
                  rfl
                · rw [if_neg h7]
                  by_cases h8 : c.toNat < 0x20
                  · rw [if_pos h8]
                    rw [show (['\\', 'u', '0', '0', hexDigitChar (c.toNat / 16),
                          hexDigitChar (c.toNat % 16)] : List Char)
                          ++ (escapeStr s ++ '"' :: rest)
                        = '\\' :: 'u' :: '0' :: '0' :: hexDigitChar (c.toNat / 16)
                          :: hexDigitChar (c.toNat % 16) :: (escapeStr s ++ '"' :: rest)
                        from rfl]
                    simp only [strStep_hex h8]
                    rw [parseStrBodyF_escape s fuel rest]
                    rfl
                  · rw [if_neg h8]
                    rw [List.singleton_append]
                    simp only [strStep_lit h1 h2 h8]
                    rw [parseStrBodyF_escape s fuel rest]
                    rfl

theorem escapeChar_length_pos (c : Char) : 1 ≤ (escapeChar c).length := by
  rw [escapeChar]
  split_ifs <;> simp

theorem escapeStr_length (s : List Char) : s.length ≤ (escapeStr s).length := by
  induction s with
  | nil => simp [escapeStr]
  | cons c cs ih =>
    rw [escapeStr]
    simp only [List.length_append, List.length_cons]
    have := escapeChar_length_pos c
    omega

theorem parseStrBody_escape (s rest : List Char) :
    parseStrBody (escapeStr s ++ '"' :: rest) = some (s, rest) := by
  rw [parseStrBody]
  have hlen : (escapeStr s ++ '"' :: rest).length + 1
      = s.length + 1 + ((escapeStr s).length - s.length + rest.length + 1) := by
    have := escapeStr_length s
    simp only [List.length_append, List.length_cons]
    omega
  rw [hlen, parseStrBodyF_escape]

theorem insertField_fresh (kvs : List (List Char × JsonValue)) (k : List Char) (v : JsonValue)
    (h : kvs.any (fun kv => kv.1 == k) = false) :
    insertField kvs k v = kvs ++ [(k, v)] := by
  simp only [insertField, h]
  rfl

theorem foldl_insertField :
    ∀ (kvs : List (List Char × JsonValue)) (acc : List (List Char × JsonValue)),
    (∀ kv ∈ kvs, acc.any (fun x => x.1 == kv.1) = false) →
    keysNodupB (kvs.map Prod.fst) = true →
    List.foldl (fun m kv => insertField m kv.1 kv.2) acc kvs = acc ++ kvs := by
  intro kvs
  induction kvs with
  | nil =>
    intro acc _ _
    simp
  | cons kv kvs ih =>
    intro acc hdisj hnodup
    rw [List.map_cons, keysNodupB, Bool.and_eq_true] at hnodup
    obtain ⟨hhead, htail⟩ := hnodup
    rw [List.foldl_cons, insertField_fresh acc kv.1 kv.2 (hdisj kv (by simp))]
    have hkv : (kv.1, kv.2) = kv := rfl
    rw [hkv, ih (acc ++ [kv]) ?_ htail]
    · simp
    · intro kv' hkv'
      rw [List.any_append]
      simp only [Bool.or_eq_false_iff]
      refine ⟨hdisj kv' (by simp [hkv']), ?_⟩
      simp only [List.any_cons, List.any_nil, Bool.or_false]
      have hne : ¬ kv.1 = kv'.1 := by
        intro he
        rw [Bool.not_eq_true'] at hhead
        rw [List.contains_eq_any_beq, List.any_eq_false] at hhead
        have hmem : kv'.1 ∈ kvs.map Prod.fst := List.mem_map_of_mem Prod.fst hkv'
        exact hhead kv'.1 hmem (by simp [he])
      simp [hne]

theorem buildObj_nodup (kvs : List (List Char × JsonValue))
    (h : keysNodupB (kvs.map Prod.fst) = true) : buildObj kvs = kvs := by
  rw [buildObj, foldl_insertField kvs [] (fun kv _ => rfl) h, List.nil_append]

theorem headIsDigit_serElems (xs : List JsonValue) (rest : List Char) :
    headIsDigit (serElems xs ++ ']' :: rest) = false := by
  cases xs with
  | nil =>
    rw [serElems, List.nil_append, headIsDigit]
    decide
  | cons x xs =>
    rw [serElems, List.cons_append, headIsDigit]
    decide

theorem headIsDigit_serFields (kvs : List (List Char × JsonValue)) (rest : List Char) :
    headIsDigit (serFields kvs ++ '\x7d' :: rest) = false := by
  cases kvs with
  | nil =>
    rw [serFields, List.nil_append, headIsDigit]
    decide
  | cons kv kvs =>
    rw [serFields, List.cons_append, headIsDigit]
    decide

theorem serNum_cons (n : Int) : ∃ c t, serNum n = c :: t
    ∧ jsonWs c = false ∧ jsWhitespace c = false
    ∧ ¬ c = ']' ∧ ¬ c = '\x7d' ∧ ¬ c = ',' ∧ ¬ c = 'n' ∧ ¬ c = 't' ∧ ¬ c = 'f'
    ∧ ¬ c = '"' ∧ ¬ c = '[' ∧ ¬ c = '\x7b' := by
  rw [serNum]
  by_cases hneg : n < 0
  · exact ⟨'-', _, by rw [if_pos hneg], by decide, by decide, by decide, by decide, by decide,
      by decide, by decide, by decide, by decide, by decide, by decide⟩
  · obtain ⟨c, t, hct, hd, _⟩ := natPrint_cons n.toNat
    refine ⟨c, t, by rw [if_neg hneg, hct], jsonWs_eq_false_of_isDigit hd,
      jsWhitespace_eq_false_of_isDigit hd, ?_, ?_, ?_, ?_, ?_, ?_, ?_, ?_, ?_⟩
    · exact ne_of_isDigit hd ']' (by decide)
    · exact ne_of_isDigit hd '\x7d' (by decide)
    · exact ne_of_isDigit hd ',' (by decide)
    · exact ne_of_isDigit hd 'n' (by decide)
    · exact ne_of_isDigit hd 't' (by decide)
    · exact ne_of_isDigit hd 'f' (by decide)
    · exact ne_of_isDigit hd '"' (by decide)
    · exact ne_of_isDigit hd '[' (by decide)
    · exact ne_of_isDigit hd '\x7b' (by decide)

theorem serialize_head (v : JsonValue) : ∃ c t, serialize v = c :: t
    ∧ jsonWs c = false ∧ jsWhitespace c = false
    ∧ ¬ c = ']' ∧ ¬ c = '\x7d' ∧ ¬ c = ',' := by
  cases v with
  | null => exact ⟨'n', ['u', 'l', 'l'], by rw [serialize]; rfl, by decide, by decide,
      by decide, by decide, by decide⟩
  | bool b =>
    cases b with
    | true => exact ⟨'t', ['r', 'u', 'e'], by rw [serialize]; rfl, by decide, by decide,
        by decide, by decide, by decide⟩
    | false => exact ⟨'f', ['a', 'l', 's', 'e'], by rw [serialize]; rfl, by decide,
        by decide, by decide, by decide, by decide⟩
  | num n =>
    obtain ⟨c, t, hct, hw, hjw, h1, h2, h3, _⟩ := serNum_cons n
    exact ⟨c, t, by rw [serialize, hct], hw, hjw, h1, h2, h3⟩
  | str s => exact ⟨'"', escapeStr s ++ ['"'], by rw [serialize, serStr], by decide,
      by decide, by decide, by decide, by decide⟩
  | arr xs =>
    cases xs with
    | nil => exact ⟨'[', [']'], by rw [serialize]; rfl, by decide, by decide, by decide,
        by decide, by decide⟩
    | cons x xs => exact ⟨'[', serialize x ++ serElems xs ++ [']'], by rw [serialize],
        by decide, by decide, by decide, by decide, by decide⟩
  | obj kvs =>
    cases kvs with
    | nil => exact ⟨'\x7b', ['\x7d'], by rw [serialize]; rfl, by decide, by decide,
        by decide, by decide, by decide⟩
    | cons kv kvs => exact ⟨'\x7b',
        serStr kv.1 ++ ':' :: serialize kv.2 ++ serFields kvs ++ ['\x7d'],
        by rw [serialize], by decide, by decide, by decide, by decide, by decide⟩

mutual
theorem jsize_le : ∀ v : JsonValue, jsize v ≤ (serialize v).length
  | .null => by rw [jsize.eq_def, serialize]; simp
  | .bool b => by
    cases b with
    | true => rw [jsize.eq_def, serialize]; simp
    | false => rw [jsize.eq_def, serialize]; simp
  | .num n => by
    rw [jsize.eq_def]
    obtain ⟨c, t, hct, _⟩ := serNum_cons n
    rw [serialize, hct]
    simp
  | .str s => by
    rw [jsize.eq_def, serialize, serStr]
    simp
  | .arr [] => by rw [jsize.eq_def, serialize]; simp
  | .arr (x :: xs) => by
    rw [jsize.eq_def, serialize]
    have h1 := jsize_le x
    have h2 := jrestSize_le xs
    simp only [List.length_cons, List.length_append]
    omega
  | .obj [] => by rw [jsize.eq_def, serialize]; simp
  | .obj (kv :: kvs) => by
    rw [jsize.eq_def, serialize]
    have h1 := jsize_le kv.2
    have h2 := jfrestSize_le kvs
    simp only [List.length_cons, List.length_append]
    omega

theorem jrestSize_le : ∀ xs : List JsonValue, jrestSize xs ≤ 1 + (serElems xs).length
  | [] => by rw [jrestSize, serElems]; simp
  | x :: xs => by
    rw [jrestSize, serElems]
    have h1 := jsize_le x
    have h2 := jrestSize_le xs
    simp only [List.length_cons, List.length_append]
    omega

theorem jfrestSize_le :
    ∀ kvs : List (List Char × JsonValue), jfrestSize kvs ≤ 1 + (serFields kvs).length
  | [] => by rw [jfrestSize, serFields]; simp
  | kv :: kvs => by
    rw [jfrestSize, serFields]
    have h1 := jsize_le kv.2
    have h2 := jfrestSize_le kvs
    simp only [List.length_cons, List.length_append]
    omega
end

theorem jsize_null : jsize .null = 1 := by rw [jsize.eq_def]

theorem jsize_bool (b : Bool) : jsize (.bool b) = 1 := by rw [jsize.eq_def]

theorem jsize_num (n : Int) : jsize (.num n) = 1 := by rw [jsize.eq_def]

theorem jsize_str (s : List Char) : jsize (.str s) = 1 := by rw [jsize.eq_def]

theorem jsize_arr_nil : jsize (.arr []) = 1 := by rw [jsize.eq_def]

theorem jsize_arr_cons (x : JsonValue) (xs : List JsonValue) :
    jsize (.arr (x :: xs)) = 1 + jsize x + jrestSize xs := by rw [jsize.eq_def]

theorem jsize_obj_nil : jsize (.obj []) = 1 := by rw [jsize.eq_def]

theorem jsize_obj_cons (kv : List Char × JsonValue) (kvs : List (List Char × JsonValue)) :
    jsize (.obj (kv :: kvs)) = 1 + jsize kv.2 + jfrestSize kvs := by rw [jsize.eq_def]

mutual
theorem parseVal_ser : ∀ (v : JsonValue) (fuel : Nat) (rest : List Char),
    noDupKeys v = true → headIsDigit rest = false →
    parseVal (jsize v + fuel) (serialize v ++ rest) = some (v, rest)
  | .null, fuel, rest => by
    intro _ _
    rw [show jsize JsonValue.null + fuel = fuel + 1 from by rw [jsize_null]; omega]
    rw [show serialize JsonValue.null = ['n', 'u', 'l', 'l'] from by rw [serialize]; rfl]
    rw [show (['n', 'u', 'l', 'l'] : List Char) ++ rest = 'n' :: 'u' :: 'l' :: 'l' :: rest
      from rfl]
    rw [parseVal]
    rw [skipWs_cons_of_not_ws _ (by decide : jsonWs 'n' = false)]
    simp
  | .bool true, fuel, rest => by
    intro _ _
    rw [show jsize (JsonValue.bool true) + fuel = fuel + 1 from by rw [jsize_bool]; omega]
    rw [show serialize (JsonValue.bool true) = ['t', 'r', 'u', 'e'] from by
      rw [serialize]; rfl]
    rw [show (['t', 'r', 'u', 'e'] : List Char) ++ rest = 't' :: 'r' :: 'u' :: 'e' :: rest
      from rfl]
    rw [parseVal]
    rw [skipWs_cons_of_not_ws _ (by decide : jsonWs 't' = false)]
    simp
  | .bool false, fuel, rest => by
    intro _ _
    rw [show jsize (JsonValue.bool false) + fuel = fuel + 1 from by rw [jsize_bool]; omega]
    rw [show serialize (JsonValue.bool false) = ['f', 'a', 'l', 's', 'e'] from by
      rw [serialize]; rfl]
    rw [show (['f', 'a', 'l', 's', 'e'] : List Char) ++ rest
        = 'f' :: 'a' :: 'l' :: 's' :: 'e' :: rest from rfl]
    rw [parseVal]
    rw [skipWs_cons_of_not_ws _ (by decide : jsonWs 'f' = false)]
    simp
  | .num n, fuel, rest => by
    intro _ h
    rw [show jsize (JsonValue.num n) + fuel = fuel + 1 from by rw [jsize_num]; omega]
    rw [show serialize (JsonValue.num n) = serNum n from by rw [serialize]]
    obtain ⟨c, t, hct, hw, _, _, _, _, hnn, hnt, hnf, hnq, hnb, hnob⟩ := serNum_cons n
    rw [parseVal, hct, List.cons_append, skipWs_cons_of_not_ws _ hw]
    simp only [if_neg hnn, if_neg hnt, if_neg hnf, if_neg hnq, if_neg hnb, if_neg hnob]
    rw [← List.cons_append, ← hct, parseNum_serNum n h]
    rfl
  | .str s, fuel, rest => by
    intro _ _
    rw [show jsize (JsonValue.str s) + fuel = fuel + 1 from by rw [jsize_str]; omega]
    rw [show serialize (JsonValue.str s) ++ rest
        = '"' :: (escapeStr s ++ '"' :: rest) from by
      rw [serialize, serStr]; simp]
    rw [parseVal]
    rw [skipWs_cons_of_not_ws _ (by decide : jsonWs '"' = false)]
    simp only [if_neg (by decide : ¬ ('"' : Char) = 'n'),
      if_neg (by decide : ¬ ('"' : Char) = 't'),
      if_neg (by decide : ¬ ('"' : Char) = 'f'),
      if_pos (rfl : ('"' : Char) = '"')]
    rw [parseStrBody_escape s rest]
    rfl
  | .arr [], fuel, rest => by
    intro _ _
    rw [show jsize (JsonValue.arr []) + fuel = fuel + 1 from by rw [jsize_arr_nil]; omega]
    rw [show serialize (JsonValue.arr []) ++ rest = '[' :: ']' :: rest from by
      rw [serialize]; rfl]
    rw [parseVal]
    rw [skipWs_cons_of_not_ws _ (by decide : jsonWs '[' = false)]
    simp only [if_neg (by decide : ¬ ('[' : Char) = 'n'),
      if_neg (by decide : ¬ ('[' : Char) = 't'),
      if_neg (by decide : ¬ ('[' : Char) = 'f'),
      if_neg (by decide : ¬ ('[' : Char) = '"'),
      if_pos (rfl : ('[' : Char) = '[')]
    rw [skipWs_cons_of_not_ws _ (by decide : jsonWs ']' = false)]
    simp
  | .arr (x :: xs), fuel, rest => by
    intro hv h
    rw [noDupKeys] at hv
    rw [noDupKeysList, Bool.and_eq_true] at hv
    obtain ⟨hvx, hvxs⟩ := hv
    rw [show jsize (JsonValue.arr (x :: xs)) + fuel
        = (jsize x + (jrestSize xs + fuel)) + 1 from by rw [jsize_arr_cons]; omega]
    rw [show serialize (JsonValue.arr (x :: xs)) ++ rest
        = '[' :: (serialize x ++ (serElems xs ++ ']' :: rest)) from by
      rw [serialize]; simp]
    rw [parseVal]
    rw [skipWs_cons_of_not_ws _ (by decide : jsonWs '[' = false)]
    simp only [if_neg (by decide : ¬ ('[' : Char) = 'n'),
      if_neg (by decide : ¬ ('[' : Char) = 't'),
      if_neg (by decide : ¬ ('[' : Char) = 'f'),
      if_neg (by decide : ¬ ('[' : Char) = '"'),
      if_pos (rfl : ('[' : Char) = '['), if_true]
    obtain ⟨c, t, hct, hw, _, hne1, _, _⟩ := serialize_head x
    rw [hct, List.cons_append, skipWs_cons_of_not_ws _ hw]
    simp only [if_neg hne1]
    rw [← List.cons_append, ← hct]
    rw [parseVal_ser x (jrestSize xs + fuel) (serElems xs ++ ']' :: rest) hvx
      (headIsDigit_serElems xs rest)]
    simp only []
    rw [show jsize x + (jrestSize xs + fuel) = jrestSize xs + (jsize x + fuel) from by omega]
    rw [parseArrRest_ser xs (jsize x + fuel) rest hvxs h]
  | .obj [], fuel, rest => by
    intro _ _
    rw [show jsize (JsonValue.obj []) + fuel = fuel + 1 from by rw [jsize_obj_nil]; omega]
    rw [show serialize (JsonValue.obj []) ++ rest = '\x7b' :: '\x7d' :: rest from by
      rw [serialize]; rfl]
    rw [parseVal]
    rw [skipWs_cons_of_not_ws _ (by decide : jsonWs '\x7b' = false)]
    simp only [if_neg (by decide : ¬ ('\x7b' : Char) = 'n'),
      if_neg (by decide : ¬ ('\x7b' : Char) = 't'),
      if_neg (by decide : ¬ ('\x7b' : Char) = 'f'),
      if_neg (by decide : ¬ ('\x7b' : Char) = '"'),
      if_neg (by decide : ¬ ('\x7b' : Char) = '['),
      if_pos (rfl : ('\x7b' : Char) = '\x7b')]
    rw [skipWs_cons_of_not_ws _ (by decide : jsonWs '\x7d' = false)]
    simp
  | .obj (kv :: kvs), fuel, rest => by
    intro hv h
    rw [noDupKeys, Bool.and_eq_true] at hv
    obtain ⟨hkeys, hfields⟩ := hv
    rw [noDupKeysFields, Bool.and_eq_true] at hfields
    obtain ⟨hvkv, hvkvs⟩ := hfields
    rw [show jsize (JsonValue.obj (kv :: kvs)) + fuel
        = (jsize kv.2 + (jfrestSize kvs + fuel)) + 1 from by rw [jsize_obj_cons]; omega]
    rw [show serialize (JsonValue.obj (kv :: kvs)) ++ rest
        = '\x7b' :: ('"' :: (escapeStr kv.1 ++ '"' :: ':'
            :: (serialize kv.2 ++ (serFields kvs ++ '\x7d' :: rest)))) from by
      rw [serialize, serStr]; simp]
    rw [parseVal]
    rw [skipWs_cons_of_not_ws _ (by decide : jsonWs '\x7b' = false)]
    simp only [if_neg (by decide : ¬ ('\x7b' : Char) = 'n'),
      if_neg (by decide : ¬ ('\x7b' : Char) = 't'),
      if_neg (by decide : ¬ ('\x7b' : Char) = 'f'),
      if_neg (by decide : ¬ ('\x7b' : Char) = '"'),
      if_neg (by decide : ¬ ('\x7b' : Char) = '['),
      if_pos (rfl : ('\x7b' : Char) = '\x7b'), if_true]
    rw [skipWs_cons_of_not_ws _ (by decide : jsonWs '"' = false)]
    simp only [if_neg (by decide : ¬ ('"' : Char) = '\x7d'),
      if_pos (rfl : ('"' : Char) = '"'), if_true]
    rw [parseStrBody_escape kv.1 (':' :: (serialize kv.2 ++ (serFields kvs ++ '\x7d' :: rest)))]
    simp only []
    rw [skipWs_cons_of_not_ws _ (by decide : jsonWs ':' = false)]
    simp only [if_pos (rfl : (':' : Char) = ':'), if_true]
    rw [parseVal_ser kv.2 (jfrestSize kvs + fuel) (serFields kvs ++ '\x7d' :: rest) hvkv
      (headIsDigit_serFields kvs rest)]
    simp only []
    rw [show jsize kv.2 + (jfrestSize kvs + fuel) = jfrestSize kvs + (jsize kv.2 + fuel)
      from by omega]
    rw [parseObjRest_ser kvs (jsize kv.2 + fuel) rest hvkvs h]
    simp only []
    rw [show ((kv.1, kv.2) : List Char × JsonValue) = kv from rfl]
    rw [buildObj_nodup (kv :: kvs) hkeys]

theorem parseArrRest_ser : ∀ (xs : List JsonValue) (fuel : Nat) (rest : List Char),
    noDupKeysList xs = true → headIsDigit rest = false →
    parseArrRest (jrestSize xs + fuel) (serElems xs ++ ']' :: rest) = some (xs, rest)
  | [], fuel, rest => by
    intro _ _
    rw [show jrestSize [] + fuel = fuel + 1 from by rw [jrestSize]; omega]
    rw [serElems, List.nil_append, parseArrRest]
    rw [skipWs_cons_of_not_ws _ (by decide : jsonWs ']' = false)]
    simp
  | x :: xs, fuel, rest => by
    intro hv h
    rw [noDupKeysList, Bool.and_eq_true] at hv
    obtain ⟨hvx, hvxs⟩ := hv
    rw [show jrestSize (x :: xs) + fuel = (jsize x + (jrestSize xs + fuel)) + 1 from by
      rw [jrestSize]; omega]
    rw [show serElems (x :: xs) ++ ']' :: rest
        = ',' :: (serialize x ++ (serElems xs ++ ']' :: rest)) from by
      rw [serElems]; simp]
    rw [parseArrRest]
    rw [skipWs_cons_of_not_ws _ (by decide : jsonWs ',' = false)]
    simp only [if_neg (by decide : ¬ (',' : Char) = ']'),
      if_pos (rfl : (',' : Char) = ','), if_true]
    rw [parseVal_ser x (jrestSize xs + fuel) (serElems xs ++ ']' :: rest) hvx
      (headIsDigit_serElems xs rest)]
    simp only []
    rw [show jsize x + (jrestSize xs + fuel) = jrestSize xs + (jsize x + fuel) from by omega]
    rw [parseArrRest_ser xs (jsize x + fuel) rest hvxs h]

theorem parseObjRest_ser : ∀ (kvs : List (List Char × JsonValue)) (fuel : Nat)
    (rest : List Char),
    noDupKeysFields kvs = true → headIsDigit rest = false →
    parseObjRest (jfrestSize kvs + fuel) (serFields kvs ++ '\x7d' :: rest) = some (kvs, rest)
  | [], fuel, rest => by
    intro _ _
    rw [show jfrestSize [] + fuel = fuel + 1 from by rw [jfrestSize]; omega]
    rw [serFields, List.nil_append, parseObjRest]
    rw [skipWs_cons_of_not_ws _ (by decide : jsonWs '\x7d' = false)]
    simp
  | kv :: kvs, fuel, rest => by
    intro hv h
    rw [noDupKeysFields, Bool.and_eq_true] at hv
    obtain ⟨hvkv, hvkvs⟩ := hv
    rw [show jfrestSize (kv :: kvs) + fuel = (jsize kv.2 + (jfrestSize kvs + fuel)) + 1
      from by rw [jfrestSize]; omega]
    rw [show serFields (kv :: kvs) ++ '\x7d' :: rest
        = ',' :: ('"' :: (escapeStr kv.1 ++ '"' :: ':'
            :: (serialize kv.2 ++ (serFields kvs ++ '\x7d' :: rest)))) from by
      rw [serFields, serStr]; simp]
    rw [parseObjRest]
    rw [skipWs_cons_of_not_ws _ (by decide : jsonWs ',' = false)]
    simp only [if_neg (by decide : ¬ (',' : Char) = '\x7d'),
      if_pos (rfl : (',' : Char) = ','), if_true]
    rw [skipWs_cons_of_not_ws _ (by decide : jsonWs '"' = false)]
    simp only [if_pos (rfl : ('"' : Char) = '"'), if_true]
    rw [parseStrBody_escape kv.1 (':' :: (serialize kv.2 ++ (serFields kvs ++ '\x7d' :: rest)))]
    simp only []
    rw [skipWs_cons_of_not_ws _ (by decide : jsonWs ':' = false)]
    simp only [if_pos (rfl : (':' : Char) = ':'), if_true]
    rw [parseVal_ser kv.2 (jfrestSize kvs + fuel) (serFields kvs ++ '\x7d' :: rest) hvkv
      (headIsDigit_serFields kvs rest)]
    simp only []
    rw [show jsize kv.2 + (jfrestSize kvs + fuel) = jfrestSize kvs + (jsize kv.2 + fuel)
      from by omega]
    rw [parseObjRest_ser kvs (jsize kv.2 + fuel) rest hvkvs h]
end

/-- C8: round-trip — serializing any (duplicate-key-free, as every
JavaScript object is by construction) value with the standard
stringify and parsing it back yields Valid with a structurally equal
value. -/
theorem claim8_round_trip (v : JsonValue) (h : noDupKeys v = true) :
    parse (serialize v) = .valid v := by
  obtain ⟨c, t, hct, _, hjw, _⟩ := serialize_head v
  have htrim : ¬ jsTrim (serialize v) = [] := by
    rw [hct, jsTrim, jsTrimLeft, if_neg (by simp [hjw])]
    obtain ⟨r, hr⟩ := jsTrimRight_cons_not_ws t hjw
    rw [hr]
    simp
  have hfuel : (serialize v).length + 1 = jsize v + ((serialize v).length + 1 - jsize v) := by
    have := jsize_le v
    omega
  have hp : parseVal ((serialize v).length + 1) (serialize v) = some (v, []) := by
    have hrun := parseVal_ser v ((serialize v).length + 1 - jsize v) [] h rfl
    rw [List.append_nil] at hrun
    rw [hfuel]
    exact hrun
  have hE : jsonParseE (serialize v) = .ok v := by
    rw [jsonParseE, hp]
    rfl
  rw [parse, if_neg htrim, hE]

/-- Witness for C8 on a small object with distinct keys. -/
theorem claim8_witness :
    noDupKeys (.obj [(['a'], .num 1), (['b'], .str ['4', '2'])]) = true
  ∧ parse (serialize (.obj [(['a'], .num 1), (['b'], .str ['4', '2'])]))
      = .valid (.obj [(['a'], .num 1), (['b'], .str ['4', '2'])]) := by
  have hnd : noDupKeys (.obj [(['a'], .num 1), (['b'], .str ['4', '2'])]) = true := by
    simp only [noDupKeys.eq_def, noDupKeysFields.eq_def]
    decide
  exact ⟨hnd, claim8_round_trip _ hnd⟩
